import Mathlib

/-!
Verification of the Delivery Route Optimization System (`src/Final2.cpp`).

The development shallowly embeds the program's core:
* the occupancy grid (`vector<vector<int>> map`) as `Grid`;
* the A* search `aStar` (lines 71-120), with the search loop made explicit
  as a step function `aStarStep` iterated with fuel (the fuel is proved
  sufficient below, so the embedded `aStar` is total on all inputs on which
  the C++ function has defined behavior);
* the planner in `main` (lines 131-164): pigeonhole bucketing by priority
  and the leg loop that chains the origin across destinations.

C++ `Node*` parent pointers are used only for path reconstruction, so a node
carries `revPath`, the list of cells from the node back to the start - exactly
the sequence the reconstruction loop at lines 90-95 walks before reversing.
An out-of-bounds write to `visited` (line 99, possible only when the supplied
origin is outside the grid) is undefined behavior in C++ and is modelled as
the `Except.error` result.
-/

/-- A cell is a coordinate pair `(x, y)` = (row, column), as in the C++ `int x, y`. -/
abbrev Cell := Int × Int

/-- Embedding of the rectangular occupancy grid `vector<vector<int>> map`
together with its dimensions `rows = map.size()`, `cols = map[0].size()`
(lines 72-73). `cell x y` is the value `map[x][y]`; the value `1` marks an
obstacle, any other value is passable (line 110 tests `map[newX][newY] != 1`). -/
structure Grid where
  rows : Nat
  cols : Nat
  cell : Int → Int → Int

/-- Lines 27-29: Manhattan distance heuristic
`abs(destX - x) + abs(destY - y)`. -/
def heuristic (x y destX destY : Int) : Nat :=
  (destX - x).natAbs + (destY - y).natAbs

/-- Lines 32-34: bounds check
`x >= 0 && y >= 0 && x < rows && y < cols`. -/
def isValid (x y : Int) (rows cols : Nat) : Bool :=
  0 ≤ x && 0 ≤ y && x < (rows : Int) && y < (cols : Int)

/-- Lines 11-23: a search node. `x y g h` are as in the C++ struct; the
`parent` pointer is replaced by `revPath`, the cell sequence from this node
back to the start obtained by following parents (the only use the C++ code
makes of `parent`, lines 90-95). -/
structure Node where
  x : Int
  y : Int
  g : Nat
  h : Nat
  revPath : List Cell
deriving DecidableEq, Repr

/-- Lines 20-22: total cost `f = g + h`. -/
def Node.f (n : Node) : Nat := n.g + n.h

/-- Line 78-79: the frontier pops a node of minimal `f` (the comparator
`a->f() > b->f()` makes `std::priority_queue` a min-`f` queue).  Tie order
among equal `f` is implementation-defined in the reference (spec section 4.2);
the model resolves ties to the leftmost (earliest-pushed) minimal node.
Returns the popped node and the remaining queue. -/
def popMin : List Node → Option (Node × List Node)
  | [] => none
  | n :: rest =>
    match popMin rest with
    | none => some (n, rest)
    | some (m, rest') => if n.f ≤ m.f then some (n, rest) else some (m, n :: rest')

/-- Lines 102-103: the four movement directions (right, left, down, up). -/
def dirs : List Cell := [(1, 0), (-1, 0), (0, 1), (0, -1)]

/-- Lines 105-116: the neighbor-expansion loop of one iteration. For each
direction, if the new cell is in bounds, not visited and not an obstacle,
a new node with `g+1` and the neighbor's heuristic is produced, its parent
chain extending the current node's. `visited` (the 2D bool array of line 74)
is embedded as the list of cells whose flag has been set. -/
def pushNeighbors (g : Grid) (destX destY : Int) (cur : Node) (visited : List Cell) :
    List Node :=
  dirs.filterMap fun d =>
    if isValid (cur.x + d.1) (cur.y + d.2) g.rows g.cols ∧
        (cur.x + d.1, cur.y + d.2) ∉ visited ∧ g.cell (cur.x + d.1) (cur.y + d.2) ≠ 1 then
      some { x := cur.x + d.1, y := cur.y + d.2, g := cur.g + 1,
             h := heuristic (cur.x + d.1) (cur.y + d.2) destX destY,
             revPath := (cur.x + d.1, cur.y + d.2) :: cur.revPath }
    else none

/-- The loop state of `aStar`: the priority queue and the visited array. -/
structure AState where
  pq : List Node
  visited : List Cell
deriving DecidableEq, Repr

/-- Outcome of one iteration of the `while (!pq.empty())` loop (lines 84-117). -/
inductive StepRes where
  /-- Line 119: the queue was empty, the loop exits and `{}` is returned. -/
  | exhausted : StepRes
  /-- Lines 89-97: the popped node is the destination; the reconstructed,
  reversed path is returned. -/
  | found : List Cell → StepRes
  /-- Line 99 writes `visited[current->x][current->y]` with the popped cell
  out of bounds: undefined behavior. -/
  | ub : StepRes
  /-- Lines 99-116: the popped cell is marked visited and its neighbors are
  pushed; the loop continues in the new state. -/
  | next : AState → StepRes
deriving DecidableEq, Repr

/-- One iteration of the search loop, lines 84-117 of `aStar`. Note the exact
order of the source: pop (85-86), destination test (89), `visited` write (99),
neighbor expansion (105-116). There is no skip of already-visited popped
nodes. -/
def aStarStep (g : Grid) (destX destY : Int) (s : AState) : StepRes :=
  match popMin s.pq with
  | none => .exhausted
  | some (cur, rest) =>
    if cur.x = destX ∧ cur.y = destY then
      .found cur.revPath.reverse
    else if isValid cur.x cur.y g.rows g.cols then
      .next ⟨rest ++ pushNeighbors g destX destY cur s.visited, (cur.x, cur.y) :: s.visited⟩
    else
      .ub

/-- The search loop iterated with fuel. `none` means the fuel ran out;
`searchFuel` below is proved to be enough on every input with defined
behavior, so this is only a device to define the recursion. -/
def aStarFuel (g : Grid) (destX destY : Int) : Nat → AState → Option (Except Unit (List Cell))
  | 0, _ => none
  | fuel + 1, s =>
    match aStarStep g destX destY s with
    | .exhausted => some (.ok [])
    | .found p => some (.ok p)
    | .ub => some (.error ())
    | .next s' => aStarFuel g destX destY fuel s'

/-- Fuel that strictly dominates the loop's iteration count (proved below via
the potential `phiPQ`). -/
def searchFuel (g : Grid) : Nat := 5 ^ (g.rows * g.cols + 2)

/-- Line 81: the initial node `Node(startX, startY, 0, heuristic(...))` with a
null parent. -/
def mkStart (startX startY destX destY : Int) : Node :=
  ⟨startX, startY, 0, heuristic startX startY destX destY, [(startX, startY)]⟩

/-- Lines 71-120: the A* search. `Except.ok p` is the returned vector (`p = []`
is the no-path result of line 119); `Except.error ()` is the undefined
behavior of the out-of-bounds `visited` write at line 99. -/
def aStar (g : Grid) (startX startY destX destY : Int) : Except Unit (List Cell) :=
  (aStarFuel g destX destY (searchFuel g)
      ⟨[mkStart startX startY destX destY], []⟩).getD (.error ())

/-! ## Planner (`main`, lines 122-169) -/

/-- Line 132: `vector<vector<pair<int,int>>> buckets(4)` - four buckets,
bucket 0 unused by the later loops. -/
structure Buckets where
  b0 : List Cell
  b1 : List Cell
  b2 : List Cell
  b3 : List Cell
deriving DecidableEq, Repr

/-- Line 134: `buckets[priority].push_back(destination)`. Indexing a
4-element vector outside `[0,3]` is undefined behavior, modelled as `none`. -/
def addDest (bs : Buckets) (d : Cell × Int) : Option Buckets :=
  if d.2 = 0 then some { bs with b0 := bs.b0 ++ [d.1] }
  else if d.2 = 1 then some { bs with b1 := bs.b1 ++ [d.1] }
  else if d.2 = 2 then some { bs with b2 := bs.b2 ++ [d.1] }
  else if d.2 = 3 then some { bs with b3 := bs.b3 ++ [d.1] }
  else none

/-- Lines 133-135: the bucketing loop, with accumulator. -/
def bucketsGo (bs : Buckets) : List (Cell × Int) → Option Buckets
  | [] => some bs
  | d :: ds =>
    match addDest bs d with
    | none => none
    | some bs' => bucketsGo bs' ds

/-- Lines 131-135: pigeonhole bucketing of the whole destination list. -/
def bucketsOf (dests : List (Cell × Int)) : Option Buckets :=
  bucketsGo ⟨[], [], [], []⟩ dests

/-- Lines 138-142 and 146-147: both the sorted listing and the run loop
iterate `priority = 1, 2, 3` over `buckets[priority]`, so the destinations
are listed and attempted in this order (bucket 0 is never iterated). -/
def tierOrder (dests : List (Cell × Int)) : Option (List Cell) :=
  (bucketsOf dests).map fun bs => bs.b1 ++ bs.b2 ++ bs.b3

/-- Lines 146-164: the leg loop over the attempted destinations, starting
from `origin`. Each entry of the result records (origin used for the leg,
destination, returned path). On a non-empty path the origin advances to the
destination (lines 160-161); on an empty path it is unchanged (line 153).
`none` propagates undefined behavior of a search. -/
def runLegs (g : Grid) : Cell → List Cell → Option (List (Cell × Cell × List Cell))
  | _, [] => some []
  | origin, d :: ds =>
    match aStar g origin.1 origin.2 d.1 d.2 with
    | .error _ => none
    | .ok p =>
      (runLegs g (if p = [] then origin else d) ds).map fun es => (origin, d, p) :: es

/-! ## Specification-side notions: adjacency, passable cells, paths -/

/-- Two cells are 4-adjacent: they differ by exactly one step in exactly one
axis. -/
def Adjacent (a b : Cell) : Prop :=
  (a.1 - b.1).natAbs + (a.2 - b.2).natAbs = 1

instance (a b : Cell) : Decidable (Adjacent a b) := by
  unfold Adjacent; infer_instance

/-- A cell is free: inside the grid and not an obstacle. -/
def freeCell (g : Grid) (c : Cell) : Prop :=
  isValid c.1 c.2 g.rows g.cols = true ∧ g.cell c.1 c.2 ≠ 1

instance (g : Grid) (c : Cell) : Decidable (freeCell g c) := by
  unfold freeCell; infer_instance

/-- `ReachN g a b n`: there is an obstacle-avoiding 4-connected path of
exactly `n` steps from `a` to `b` (all cells of the path, both endpoints
included, are free). -/
inductive ReachN (g : Grid) : Cell → Cell → Nat → Prop
  | refl (a : Cell) (ha : freeCell g a) : ReachN g a a 0
  | step (a b c : Cell) (n : Nat) (hab : Adjacent a b) (ha : freeCell g a)
      (h : ReachN g b c n) : ReachN g a c (n + 1)

/-- Iterate the search loop from a state: used to exhibit concrete loop
executions. -/
def stepIter (g : Grid) (destX destY : Int) : Nat → AState → StepRes
  | 0, s => .next s
  | n + 1, s =>
    match aStarStep g destX destY s with
    | .next s' => stepIter g destX destY n s'
    | r => r

/-- The destinations of a given priority tier, in input order. -/
def tierFilter (p : Int) (dests : List (Cell × Int)) : List Cell :=
  (dests.filter fun d => d.2 == p).map Prod.fst

/-- The heuristic value of a cell toward a target, as a function of cells. -/
def heurTo (t c : Cell) : Nat := heuristic c.1 c.2 t.1 t.2

/-- Invariant of a single frontier node during a search from origin `o`
toward target `t`: its parent chain `revPath` is a duplicate-free
obstacle-avoiding walk of `g` steps from the node's cell back to the origin,
and its `h` field is the heuristic of its cell. -/
structure NodeInv (g : Grid) (o t : Cell) (n : Node) : Prop where
  ne : n.revPath ≠ []
  head : n.revPath.head? = some (n.x, n.y)
  last : n.revPath.getLast? = some o
  len : n.revPath.length = n.g + 1
  hh : n.h = heurTo t (n.x, n.y)
  chain : List.Chain' Adjacent n.revPath
  free : ∀ c ∈ n.revPath, freeCell g c
  nodup : n.revPath.Nodup
  reach : ReachN g o (n.x, n.y) n.g

/-- Global loop invariant of the search from a free origin `o` toward `t`:
every frontier node is well-formed with its parent chain (cell excepted)
already visited; every visited cell is free, and each of its free unvisited
neighbors has a frontier entry whose `g` exceeds the cell's true distance by
at most one; the origin keeps a `g = 0` entry until it is visited; and the
target is never visited (popping it returns at once). -/
structure GInv (g : Grid) (o t : Cell) (s : AState) : Prop where
  qinv : ∀ n ∈ s.pq, NodeInv g o t n
  qtail : ∀ n ∈ s.pq, ∀ c ∈ n.revPath.tail, c ∈ s.visited
  vfree : ∀ c ∈ s.visited, freeCell g c
  vnb : ∀ c ∈ s.visited, ∀ b : Cell, Adjacent c b → freeCell g b → b ∉ s.visited →
          ∃ m ∈ s.pq, (m.x, m.y) = b ∧ ∀ k, ReachN g o c k → m.g ≤ k + 1
  origin : o ∉ s.visited → ∃ m ∈ s.pq, (m.x, m.y) = o ∧ m.g = 0
  tnotv : t ∉ s.visited

/-- What holds of the list returned through the `found` branch: it is a
non-empty obstacle-avoiding 4-connected walk from the origin to the target
whose step count is minimal among all such walks. -/
structure FoundGood (g : Grid) (o t : Cell) (p : List Cell) : Prop where
  ne : p ≠ []
  head : p.head? = some o
  last : p.getLast? = some t
  chain : List.Chain' Adjacent p
  free : ∀ c ∈ p, freeCell g c
  reach : ReachN g o t (p.length - 1)
  mini : ∀ k, ReachN g o t k → p.length - 1 ≤ k

/-- Weight of a frontier node for the termination potential: nodes with
longer parent chains weigh less. -/
def nodeWeight (B : Nat) (n : Node) : Nat := 5 ^ (B - n.revPath.length)

/-- Termination potential of the frontier: each step of the loop strictly
decreases it (one node of weight `5^(B-L)` is replaced by at most four of
weight `5^(B-L-1)`). -/
def phiPQ (B : Nat) (pq : List Node) : Nat := (pq.map (nodeWeight B)).sum

/-! ## Concrete instances used in counterexamples and witnesses -/

/-- A 2 x 3 grid with no obstacles. -/
def gridFree2x3 : Grid := ⟨2, 3, fun _ _ => 0⟩

/-- A 1 x 1 grid with no obstacles. -/
def gridFree1x1 : Grid := ⟨1, 1, fun _ _ => 0⟩

/-- A 1 x 2 grid with no obstacles. -/
def gridFree1x2 : Grid := ⟨1, 2, fun _ _ => 0⟩

/-- A 1 x 2 grid whose cell (0, 0) is an obstacle. -/
def gridObstacleOrigin : Grid := ⟨1, 2, fun x y => if x = 0 ∧ y = 0 then 1 else 0⟩

/-- A 1 x 2 grid whose cell (0, 1) is an obstacle. -/
def gridObstacleTarget : Grid := ⟨1, 2, fun x y => if x = 0 ∧ y = 1 then 1 else 0⟩

/-- Initial search state on `gridFree2x3` from origin (0,0) toward (1,2). -/
def cexInit : AState := ⟨[mkStart 0 0 1 2], []⟩

/-- The state reached after four iterations of the search loop on
`gridFree2x3` from (0,0) toward (1,2): cell (1,1) is already visited but a
duplicate frontier entry for it remains. -/
def cexS4 : AState :=
  ⟨[⟨1, 1, 2, 1, [(1, 1), (0, 1), (0, 0)]⟩,
    ⟨0, 2, 2, 1, [(0, 2), (0, 1), (0, 0)]⟩,
    ⟨1, 2, 3, 0, [(1, 2), (1, 1), (1, 0), (0, 0)]⟩],
   [(1, 1), (0, 1), (1, 0), (0, 0)]⟩

/-- The duplicate frontier entry for the already-visited cell (1,1). -/
def cexDupNode : Node := ⟨1, 1, 2, 1, [(1, 1), (0, 1), (0, 0)]⟩

/-- The queue remaining after popping `cexDupNode` from `cexS4`. -/
def cexRest : List Node :=
  [⟨0, 2, 2, 1, [(0, 2), (0, 1), (0, 0)]⟩,
   ⟨1, 2, 3, 0, [(1, 2), (1, 1), (1, 0), (0, 0)]⟩]

/-- The state after the fifth iteration: the duplicate pop of (1,1)
re-expanded it and pushed a second entry for its neighbor (1,2). -/
def cexS5 : AState :=
  ⟨[⟨0, 2, 2, 1, [(0, 2), (0, 1), (0, 0)]⟩,
    ⟨1, 2, 3, 0, [(1, 2), (1, 1), (1, 0), (0, 0)]⟩,
    ⟨1, 2, 3, 0, [(1, 2), (1, 1), (0, 1), (0, 0)]⟩],
   [(1, 1), (1, 1), (0, 1), (1, 0), (0, 0)]⟩

example : heuristic 0 0 1 2 = 3 := by decide

example : aStar ⟨1, 1, fun _ _ => 0⟩ 0 0 0 0 = .ok [(0, 0)] := by rfl

example : aStar ⟨1, 2, fun _ _ => 0⟩ 0 0 0 1 = .ok [(0, 0), (0, 1)] := by rfl

/-! ## Bucketing lemmas (planner, lines 131-147) -/

lemma addDest_invalid (bs : Buckets) (d : Cell × Int) (h : ¬(0 ≤ d.2 ∧ d.2 ≤ 3)) :
    addDest bs d = none := by
  unfold addDest
  rw [if_neg (by omega), if_neg (by omega), if_neg (by omega), if_neg (by omega)]

lemma bucketsGo_invalid : ∀ (ds : List (Cell × Int)) (bs : Buckets) (d : Cell × Int),
    d ∈ ds → ¬(0 ≤ d.2 ∧ d.2 ≤ 3) → bucketsGo bs ds = none := by
  intro ds
  induction ds with
  | nil => intro bs d h; simp at h
  | cons e es ih =>
    intro bs d hd hbad
    rcases List.mem_cons.mp hd with rfl | hd'
    · simp [bucketsGo, addDest_invalid bs d hbad]
    · cases ha : addDest bs e with
      | none => simp [bucketsGo, ha]
      | some bs' => simpa [bucketsGo, ha] using ih bs' d hd' hbad

lemma tierFilter_cons_self (p : Int) (e : Cell × Int) (es : List (Cell × Int)) (h : e.2 = p) :
    tierFilter p (e :: es) = e.1 :: tierFilter p es := by
  simp [tierFilter, List.filter_cons, h]

lemma tierFilter_cons_ne (p : Int) (e : Cell × Int) (es : List (Cell × Int)) (h : e.2 ≠ p) :
    tierFilter p (e :: es) = tierFilter p es := by
  simp [tierFilter, List.filter_cons, h]

lemma bucketsGo_valid : ∀ (ds : List (Cell × Int)) (bs : Buckets),
    (∀ d ∈ ds, 0 ≤ d.2 ∧ d.2 ≤ 3) →
    bucketsGo bs ds = some ⟨bs.b0 ++ tierFilter 0 ds, bs.b1 ++ tierFilter 1 ds,
                            bs.b2 ++ tierFilter 2 ds, bs.b3 ++ tierFilter 3 ds⟩ := by
  intro ds
  induction ds with
  | nil => intro bs _; simp [bucketsGo, tierFilter]
  | cons e es ih =>
    intro bs h
    have he := h e (List.mem_cons_self e es)
    have hes : ∀ d ∈ es, 0 ≤ d.2 ∧ d.2 ≤ 3 := fun d hd => h d (List.mem_cons_of_mem e hd)
    have hcases : e.2 = 0 ∨ e.2 = 1 ∨ e.2 = 2 ∨ e.2 = 3 := by omega
    rcases hcases with h0 | h1 | h2 | h3
    · rw [show bucketsGo bs (e :: es) = bucketsGo { bs with b0 := bs.b0 ++ [e.1] } es from by
        simp [bucketsGo, addDest, h0]]
      rw [ih _ hes, tierFilter_cons_self 0 e es h0,
        tierFilter_cons_ne 1 e es (by omega), tierFilter_cons_ne 2 e es (by omega),
        tierFilter_cons_ne 3 e es (by omega)]
      simp
    · rw [show bucketsGo bs (e :: es) = bucketsGo { bs with b1 := bs.b1 ++ [e.1] } es from by
        simp [bucketsGo, addDest, h1]]
      rw [ih _ hes, tierFilter_cons_self 1 e es h1,
        tierFilter_cons_ne 0 e es (by omega), tierFilter_cons_ne 2 e es (by omega),
        tierFilter_cons_ne 3 e es (by omega)]
      simp
    · rw [show bucketsGo bs (e :: es) = bucketsGo { bs with b2 := bs.b2 ++ [e.1] } es from by
        simp [bucketsGo, addDest, h2]]
      rw [ih _ hes, tierFilter_cons_self 2 e es h2,
        tierFilter_cons_ne 0 e es (by omega), tierFilter_cons_ne 1 e es (by omega),
        tierFilter_cons_ne 3 e es (by omega)]
      simp
    · rw [show bucketsGo bs (e :: es) = bucketsGo { bs with b3 := bs.b3 ++ [e.1] } es from by
        simp [bucketsGo, addDest, h3]]
      rw [ih _ hes, tierFilter_cons_self 3 e es h3,
        tierFilter_cons_ne 0 e es (by omega), tierFilter_cons_ne 1 e es (by omega),
        tierFilter_cons_ne 2 e es (by omega)]
      simp

lemma bucketsOf_some_valid (dests : List (Cell × Int)) (bs : Buckets)
    (h : bucketsOf dests = some bs) : ∀ d ∈ dests, 0 ≤ d.2 ∧ d.2 ≤ 3 := by
  intro d hd
  by_contra hbad
  rw [bucketsOf, bucketsGo_invalid dests _ d hd hbad] at h
  exact Option.noConfusion h

lemma tierOrder_eq (dests : List (Cell × Int)) (l : List Cell) (h : tierOrder dests = some l) :
    l = tierFilter 1 dests ++ tierFilter 2 dests ++ tierFilter 3 dests := by
  unfold tierOrder at h
  cases hb : bucketsOf dests with
  | none => rw [hb] at h; simp at h
  | some bs =>
    rw [hb] at h
    simp only [Option.map_some'] at h
    injection h with h
    have hvalid := bucketsOf_some_valid dests bs hb
    rw [bucketsOf, bucketsGo_valid dests _ hvalid] at hb
    injection hb with hb
    subst hb
    simpa using h.symm

lemma mem_tierFilter (c : Cell) (p : Int) (dests : List (Cell × Int)) :
    c ∈ tierFilter p dests ↔ (c, p) ∈ dests := by
  simp only [tierFilter, List.mem_map, List.mem_filter, beq_iff_eq]
  constructor
  · rintro ⟨⟨a1, a2⟩, ⟨ha, h2⟩, h1⟩
    dsimp at h1 h2
    rw [h1, h2] at ha
    exact ha
  · intro h
    exact ⟨(c, p), ⟨h, rfl⟩, rfl⟩

/-- C4: for every destination list on which the bucketing loop has defined
behavior, the attempted order lists all tier-1 destinations (in input order)
first, then all tier-2, then all tier-3: stable bucketing. -/
theorem tierOrder_sorted (dests : List (Cell × Int)) (l : List Cell)
    (h : tierOrder dests = some l) :
    l = tierFilter 1 dests ++ tierFilter 2 dests ++ tierFilter 3 dests :=
  tierOrder_eq dests l h

theorem tierOrder_sorted_witness :
    tierOrder [((0, 0), 2), ((1, 1), 1), ((2, 2), 3), ((3, 3), 1)] =
      some [(1, 1), (3, 3), (0, 0), (2, 2)] ∧
    ([(1, 1), (3, 3), (0, 0), (2, 2)] : List Cell) =
      tierFilter 1 [((0, 0), 2), ((1, 1), 1), ((2, 2), 3), ((3, 3), 1)] ++
      tierFilter 2 [((0, 0), 2), ((1, 1), 1), ((2, 2), 3), ((3, 3), 1)] ++
      tierFilter 3 [((0, 0), 2), ((1, 1), 1), ((2, 2), 3), ((3, 3), 1)] :=
  ⟨by decide, tierOrder_sorted _ _ (by decide)⟩

/-- C9: bucket indexing is in bounds exactly when every priority lies in
[0, 3]; a priority outside that range makes `buckets[priority]` an
out-of-bounds access (modelled as `none`). -/
theorem bucketsOf_priority_range (dests : List (Cell × Int)) :
    bucketsOf dests ≠ none ↔ ∀ d ∈ dests, 0 ≤ d.2 ∧ d.2 ≤ 3 := by
  constructor
  · intro h
    by_contra hcon
    simp only [not_forall] at hcon
    obtain ⟨d, hd, hbad⟩ := hcon
    exact h (bucketsGo_invalid dests _ d hd hbad)
  · intro h
    rw [bucketsOf, bucketsGo_valid dests _ h]
    simp

theorem bucketsOf_priority_range_witness :
    (bucketsOf [((0, 0), 1), ((2, 2), 0)] ≠ none) ∧ bucketsOf [((5, 5), 4)] = none := by
  refine ⟨(bucketsOf_priority_range _).mpr (by decide), by decide⟩

/-- C10: a destination is listed and attempted exactly when some input entry
carries it with a priority in {1, 2, 3}; priority-0 destinations are bucketed
but omitted (bucket 0 is never iterated). -/
theorem tierOrder_membership (dests : List (Cell × Int)) (l : List Cell) (c : Cell)
    (h : tierOrder dests = some l) :
    c ∈ l ↔ ∃ p : Int, (1 ≤ p ∧ p ≤ 3) ∧ (c, p) ∈ dests := by
  rw [tierOrder_eq dests l h]
  simp only [List.mem_append, mem_tierFilter]
  constructor
  · rintro ((h1 | h2) | h3)
    · exact ⟨1, by omega, h1⟩
    · exact ⟨2, by omega, h2⟩
    · exact ⟨3, by omega, h3⟩
  · rintro ⟨p, ⟨hp1, hp3⟩, hmem⟩
    have : p = 1 ∨ p = 2 ∨ p = 3 := by omega
    rcases this with rfl | rfl | rfl
    · exact Or.inl (Or.inl hmem)
    · exact Or.inl (Or.inr hmem)
    · exact Or.inr hmem

theorem tierOrder_membership_witness :
    tierOrder ([((7, 7), 0), ((1, 1), 2)] : List (Cell × Int)) = some [(1, 1)] ∧
    (((1, 1) : Cell) ∈ [((1, 1) : Cell)] ↔ ∃ p : Int, (1 ≤ p ∧ p ≤ 3) ∧
      ((1, 1), p) ∈ ([((7, 7), 0), ((1, 1), 2)] : List (Cell × Int))) ∧
    (((7, 7) : Cell) ∈ [((1, 1) : Cell)] ↔ ∃ p : Int, (1 ≤ p ∧ p ≤ 3) ∧
      ((7, 7), p) ∈ ([((7, 7), 0), ((1, 1), 2)] : List (Cell × Int))) :=
  ⟨by decide,
   tierOrder_membership ([((7, 7), 0), ((1, 1), 2)] : List (Cell × Int)) [(1, 1)] (1, 1)
     (by decide),
   tierOrder_membership ([((7, 7), 0), ((1, 1), 2)] : List (Cell × Int)) [(1, 1)] (7, 7)
     (by decide)⟩

/-! ## Origin chaining (planner leg loop, lines 146-164) -/

/-- C5: every destination of the tier-ordered list is attempted in order; a
leg's origin is the initial origin for the first leg, and after a leg it
advances to the destination exactly when the returned path is non-empty,
staying unchanged on an empty (failed) path. A failed leg never stops later
destinations from being attempted. -/
theorem runLegs_origin_chaining (g : Grid) :
    ∀ (ds : List Cell) (o : Cell) (es : List (Cell × Cell × List Cell)),
    runLegs g o ds = some es →
    es.map (fun e => e.2.1) = ds ∧
    (∀ e ∈ es.head?, e.1 = o) ∧
    List.Chain' (fun e₁ e₂ => e₂.1 = if e₁.2.2 = [] then e₁.1 else e₁.2.1) es := by
  intro ds
  induction ds with
  | nil =>
    intro o es h
    simp only [runLegs, Option.some.injEq] at h
    subst h
    simp
  | cons d ds ih =>
    intro o es h
    cases ha : aStar g o.1 o.2 d.1 d.2 with
    | error e => simp [runLegs, ha] at h
    | ok p =>
      simp only [runLegs, ha, Option.map_eq_some'] at h
      obtain ⟨es', hsome, hes⟩ := h
      subst hes
      obtain ⟨hmap, hhead, hchain⟩ := ih (if p = [] then o else d) es' hsome
      refine ⟨by simp [hmap], by simp, ?_⟩
      rw [List.chain'_cons']
      exact ⟨fun y hy => hhead y hy, hchain⟩

theorem runLegs_origin_chaining_witness :
    runLegs gridObstacleTarget (0, 0) [(0, 1), (0, 0)] =
      some [((0, 0), (0, 1), []), ((0, 0), (0, 0), [(0, 0)])] ∧
    ([((0, 0), (0, 1), []), ((0, 0), (0, 0), [(0, 0)])] :
        List (Cell × Cell × List Cell)).map (fun e => e.2.1) = [(0, 1), (0, 0)] ∧
    (∀ e ∈ ([((0, 0), (0, 1), []), ((0, 0), (0, 0), [(0, 0)])] :
        List (Cell × Cell × List Cell)).head?, e.1 = (0, 0)) ∧
    List.Chain' (fun e₁ e₂ => e₂.1 = if e₁.2.2 = [] then e₁.1 else e₁.2.1)
      ([((0, 0), (0, 1), []), ((0, 0), (0, 0), [(0, 0)])] :
        List (Cell × Cell × List Cell)) :=
  ⟨by rfl, runLegs_origin_chaining gridObstacleTarget [(0, 1), (0, 0)] (0, 0) _ (by rfl)⟩

/-! ## Immediate return when origin equals target (lines 84-97) -/

/-- C8: when origin equals target, the very first popped node is the
destination, so `aStar` returns the single-cell path at once - before the
`visited` write of line 99 and before any neighbor inspection - so neither
the bounds nor the passability of the cell matter (the theorem quantifies
over every grid, including ones where the cell is out of bounds or an
obstacle). -/
theorem aStar_self_target (g : Grid) (x y : Int) : aStar g x y x y = .ok [(x, y)] := by
  have hpos : 0 < searchFuel g := pow_pos (by norm_num) _
  obtain ⟨k, hk⟩ : ∃ k, searchFuel g = k + 1 := ⟨searchFuel g - 1, by omega⟩
  unfold aStar
  rw [hk]
  simp [aStarFuel, aStarStep, popMin, mkStart]

/-! ## No closed-set skip at pop (C6) -/

/-- C6 is false of the code: lines 84-116 contain no check that the popped
cell is already visited. Concretely, on the all-free 2 x 3 grid searching
from (0,0) to (1,2), the fifth iteration pops a duplicate entry for the
already-visited cell (1,1) and, far from skipping it, re-expands it and
pushes a fresh entry for its neighbor (1,2): the queue after the step has
one more node than the popped queue remainder, where a skip would leave
exactly the remainder. -/
theorem aStarStep_no_skip_counterexample :
    stepIter gridFree2x3 1 2 4 cexInit = .next cexS4 ∧
    popMin cexS4.pq = some (cexDupNode, cexRest) ∧
    (cexDupNode.x, cexDupNode.y) ∈ cexS4.visited ∧
    aStarStep gridFree2x3 1 2 cexS4 = .next cexS5 ∧
    cexS5.pq.length = cexRest.length + 1 := by decide

lemma adjacent_exists_dir (a b : Cell) (h : Adjacent a b) :
    ∃ d ∈ dirs, b = (a.1 + d.1, a.2 + d.2) := by
  unfold Adjacent at h
  have hc : (b.1 = a.1 + 1 ∧ b.2 = a.2) ∨ (b.1 = a.1 - 1 ∧ b.2 = a.2) ∨
      (b.1 = a.1 ∧ b.2 = a.2 + 1) ∨ (b.1 = a.1 ∧ b.2 = a.2 - 1) := by omega
  rcases hc with ⟨h1, h2⟩ | ⟨h1, h2⟩ | ⟨h1, h2⟩ | ⟨h1, h2⟩
  · exact ⟨(1, 0), by simp [dirs], by rw [Prod.ext_iff]; constructor <;> simp <;> omega⟩
  · exact ⟨(-1, 0), by simp [dirs], by rw [Prod.ext_iff]; constructor <;> simp <;> omega⟩
  · exact ⟨(0, 1), by simp [dirs], by rw [Prod.ext_iff]; constructor <;> simp <;> omega⟩
  · exact ⟨(0, -1), by simp [dirs], by rw [Prod.ext_iff]; constructor <;> simp <;> omega⟩

/-- C6 amended: a popped node is never skipped. Even when its cell is already
in the visited set, a popped non-destination node is re-expanded: the cell is
re-marked and every in-bounds, passable, not-yet-visited neighbor is pushed
again (pushes stay guarded by the visited check of line 110, so only
not-yet-closed cells are pushed). -/
theorem aStarStep_expands_visited (g : Grid) (destX destY : Int) (s : AState)
    (n : Node) (rest : List Node) (b : Cell)
    (hpop : popMin s.pq = some (n, rest))
    (hng : ¬(n.x = destX ∧ n.y = destY))
    (hval : isValid n.x n.y g.rows g.cols = true)
    (_hvis : (n.x, n.y) ∈ s.visited)
    (hadj : Adjacent (n.x, n.y) b)
    (hbval : isValid b.1 b.2 g.rows g.cols = true)
    (hbfree : g.cell b.1 b.2 ≠ 1)
    (hbnv : b ∉ s.visited) :
    aStarStep g destX destY s =
      .next ⟨rest ++ pushNeighbors g destX destY n s.visited,
             (n.x, n.y) :: s.visited⟩ ∧
    ∃ m ∈ pushNeighbors g destX destY n s.visited, (m.x, m.y) = b ∧ m.g = n.g + 1 := by
  constructor
  · simp only [aStarStep, hpop]
    rw [if_neg hng, if_pos hval]
  · obtain ⟨dd, hdd, hb⟩ := adjacent_exists_dir (n.x, n.y) b hadj
    subst hb
    simp only [pushNeighbors, List.mem_filterMap]
    refine ⟨⟨n.x + dd.1, n.y + dd.2, n.g + 1,
      heuristic (n.x + dd.1) (n.y + dd.2) destX destY,
      (n.x + dd.1, n.y + dd.2) :: n.revPath⟩, ⟨dd, hdd, ?_⟩, rfl, rfl⟩
    rw [if_pos ⟨hbval, hbnv, hbfree⟩]

theorem aStarStep_expands_visited_witness :
    (popMin cexS4.pq = some (cexDupNode, cexRest) ∧
     ¬(cexDupNode.x = 1 ∧ cexDupNode.y = 2) ∧
     isValid cexDupNode.x cexDupNode.y gridFree2x3.rows gridFree2x3.cols = true ∧
     (cexDupNode.x, cexDupNode.y) ∈ cexS4.visited ∧
     Adjacent (cexDupNode.x, cexDupNode.y) (1, 2) ∧
     isValid 1 2 gridFree2x3.rows gridFree2x3.cols = true ∧
     gridFree2x3.cell 1 2 ≠ 1 ∧
     ((1, 2) : Cell) ∉ cexS4.visited) ∧
    (aStarStep gridFree2x3 1 2 cexS4 =
       .next ⟨cexRest ++ pushNeighbors gridFree2x3 1 2 cexDupNode cexS4.visited,
              (cexDupNode.x, cexDupNode.y) :: cexS4.visited⟩ ∧
     ∃ m ∈ pushNeighbors gridFree2x3 1 2 cexDupNode cexS4.visited,
       (m.x, m.y) = (1, 2) ∧ m.g = cexDupNode.g + 1) :=
  ⟨⟨by decide, by decide, by decide, by decide, by decide, by decide, by decide, by decide⟩,
   aStarStep_expands_visited gridFree2x3 1 2 cexS4 cexDupNode cexRest (1, 2)
     (by decide) (by decide) (by decide) (by decide) (by decide) (by decide)
     (by decide) (by decide)⟩

/-! ## Out-of-bounds handling (C7) -/

/-- C7 is false of the code: `aStar` performs no bounds validation of origin
or target and has no error signalling at all. With the target (5,5) outside
a 1 x 1 grid, the search simply exhausts its frontier and returns the empty
"unreachable" path - exactly the outcome the claim says is not produced. -/
theorem aStar_oob_counterexample : aStar gridFree1x1 0 0 5 5 = .ok [] := by rfl

/-! ## Properties of the frontier pop -/

lemma popMin_eq_none (l : List Node) : popMin l = none ↔ l = [] := by
  cases l with
  | nil => simp [popMin]
  | cons n rest =>
    simp only [popMin]
    cases h : popMin rest with
    | none => simp
    | some p =>
      obtain ⟨m, r⟩ := p
      by_cases hf : n.f ≤ m.f <;> simp [hf]

lemma popMin_perm : ∀ (l : List Node) (n : Node) (rest : List Node),
    popMin l = some (n, rest) → l.Perm (n :: rest) := by
  intro l
  induction l with
  | nil => intro n rest h; simp [popMin] at h
  | cons a as ih =>
    intro n rest h
    cases hp : popMin as with
    | none =>
      simp only [popMin, hp, Option.some.injEq, Prod.mk.injEq] at h
      obtain ⟨rfl, rfl⟩ := h
      exact List.Perm.refl _
    | some p =>
      obtain ⟨m, r⟩ := p
      simp only [popMin, hp] at h
      by_cases hf : a.f ≤ m.f
      · rw [if_pos hf] at h
        simp only [Option.some.injEq, Prod.mk.injEq] at h
        obtain ⟨rfl, rfl⟩ := h
        exact List.Perm.refl _
      · rw [if_neg hf] at h
        simp only [Option.some.injEq, Prod.mk.injEq] at h
        obtain ⟨rfl, rfl⟩ := h
        exact ((ih m r hp).cons a).trans (List.Perm.swap m a r)

lemma popMin_mem (l : List Node) (n : Node) (rest : List Node)
    (h : popMin l = some (n, rest)) : n ∈ l :=
  (popMin_perm l n rest h).mem_iff.mpr (List.mem_cons_self n rest)

lemma popMin_rest_mem (l : List Node) (n : Node) (rest : List Node)
    (h : popMin l = some (n, rest)) : ∀ m ∈ rest, m ∈ l :=
  fun m hm => (popMin_perm l n rest h).mem_iff.mpr (List.mem_cons_of_mem n hm)

lemma popMin_mem_of_ne (l : List Node) (n : Node) (rest : List Node)
    (h : popMin l = some (n, rest)) : ∀ m ∈ l, m ≠ n → m ∈ rest := by
  intro m hm hne
  rcases List.mem_cons.mp ((popMin_perm l n rest h).mem_iff.mp hm) with rfl | hr
  · exact absurd rfl hne
  · exact hr

lemma popMin_min : ∀ (l : List Node) (n : Node) (rest : List Node),
    popMin l = some (n, rest) → ∀ m ∈ l, n.f ≤ m.f := by
  intro l
  induction l with
  | nil => intro n rest h; simp [popMin] at h
  | cons a as ih =>
    intro n rest h m hm
    cases hp : popMin as with
    | none =>
      simp only [popMin, hp, Option.some.injEq, Prod.mk.injEq] at h
      obtain ⟨rfl, rfl⟩ := h
      have has : as = [] := (popMin_eq_none as).mp hp
      subst has
      rcases List.mem_cons.mp hm with rfl | hm'
      · exact le_refl _
      · simp at hm'
    | some p =>
      obtain ⟨mm, r⟩ := p
      simp only [popMin, hp] at h
      by_cases hf : a.f ≤ mm.f
      · rw [if_pos hf] at h
        simp only [Option.some.injEq, Prod.mk.injEq] at h
        obtain ⟨rfl, rfl⟩ := h
        rcases List.mem_cons.mp hm with rfl | hm'
        · exact le_refl _
        · exact le_trans hf (ih mm r hp m hm')
      · rw [if_neg hf] at h
        simp only [Option.some.injEq, Prod.mk.injEq] at h
        obtain ⟨rfl, rfl⟩ := h
        rcases List.mem_cons.mp hm with rfl | hm'
        · omega
        · exact ih mm r hp m hm'

/-! ## Properties of adjacency, free cells and reachability -/

lemma adjacent_symm (a b : Cell) (h : Adjacent a b) : Adjacent b a := by
  unfold Adjacent at *
  omega

lemma adjacent_ne (a b : Cell) (h : Adjacent a b) : a ≠ b := by
  unfold Adjacent at h
  intro he
  rw [he] at h
  omega

lemma dir_adjacent (x y : Int) (d : Cell) (hd : d ∈ dirs) :
    Adjacent (x, y) (x + d.1, y + d.2) := by
  unfold Adjacent
  rcases (show d = (1, 0) ∨ d = (-1, 0) ∨ d = (0, 1) ∨ d = (0, -1) from by
    simpa [dirs] using hd) with rfl | rfl | rfl | rfl <;>
      first
        | (simp; omega)
        | simp

lemma reachN_zero_eq (g : Grid) (a b : Cell) (h : ReachN g a b 0) : a = b := by
  cases h
  rfl

lemma reachN_free_start (g : Grid) (a b : Cell) (n : Nat) (h : ReachN g a b n) :
    freeCell g a := by
  cases h with
  | refl _ ha => exact ha
  | step _ _ _ _ _ ha _ => exact ha

lemma reachN_free_end (g : Grid) (a b : Cell) (n : Nat) (h : ReachN g a b n) :
    freeCell g b := by
  induction h with
  | refl _ ha => exact ha
  | step _ _ _ _ _ _ _ ih => exact ih

lemma reachN_trans (g : Grid) : ∀ (j : Nat) (a b c : Cell) (k : Nat),
    ReachN g a b j → ReachN g b c k → ReachN g a c (j + k) := by
  intro j
  induction j with
  | zero =>
    intro a b c k h1 h2
    have := reachN_zero_eq g a b h1
    subst this
    simpa using h2
  | succ m ih =>
    intro a b c k h1 h2
    cases h1 with
    | step _ d _ _ hab ha hr =>
      have h3 := ReachN.step a d c (m + k) hab ha (ih d b c k hr h2)
      have he : m + 1 + k = m + k + 1 := by omega
      rw [he]
      exact h3

lemma reachN_single (g : Grid) (a b : Cell) (hab : Adjacent a b)
    (ha : freeCell g a) (hb : freeCell g b) : ReachN g a b 1 :=
  ReachN.step a b b 0 hab ha (ReachN.refl b hb)

lemma reachN_symm (g : Grid) (a b : Cell) (n : Nat) (h : ReachN g a b n) :
    ReachN g b a n := by
  induction h with
  | refl a' ha => exact ReachN.refl a' ha
  | step a' b' c' n' hab ha hr ih =>
    have h1 : ReachN g b' a' 1 :=
      reachN_single g b' a' (adjacent_symm a' b' hab) (reachN_free_start g b' c' n' hr) ha
    exact reachN_trans g n' c' b' a' 1 ih h1

lemma reachN_succ_inv (g : Grid) : ∀ (n : Nat) (a c : Cell),
    ReachN g a c (n + 1) → ∃ b, ReachN g a b n ∧ Adjacent b c ∧ freeCell g c := by
  intro n
  induction n with
  | zero =>
    intro a c h
    cases h with
    | step _ b _ _ hab ha hbc =>
      have hb : b = c := reachN_zero_eq g b c hbc
      subst hb
      exact ⟨a, ReachN.refl a ha, hab, reachN_free_start g b b 0 hbc⟩
  | succ m ih =>
    intro a c h
    cases h with
    | step _ b _ _ hab ha hbc =>
      obtain ⟨y, hby, hyc, hc⟩ := ih b c hbc
      exact ⟨y, ReachN.step a b y m hab ha hby, hyc, hc⟩

lemma heur_adjacent (t a b : Cell) (h : Adjacent a b) :
    heurTo t a ≤ heurTo t b + 1 := by
  unfold heurTo heuristic
  unfold Adjacent at h
  omega

lemma heurTo_self (t : Cell) : heurTo t t = 0 := by
  unfold heurTo heuristic
  omega

lemma heur_le_reach (g : Grid) (t a b : Cell) (n : Nat) (h : ReachN g a b n) :
    heurTo t a ≤ heurTo t b + n := by
  induction h with
  | refl _ _ => simp
  | step a' b' c' n' hab _ _ ih =>
    have := heur_adjacent t a' b' hab
    omega

/-! ## Characterizing the neighbor expansion -/

lemma pushNeighbors_mem_inv (g : Grid) (destX destY : Int) (cur : Node)
    (visited : List Cell) (m : Node) (hm : m ∈ pushNeighbors g destX destY cur visited) :
    ∃ d ∈ dirs, isValid (cur.x + d.1) (cur.y + d.2) g.rows g.cols = true ∧
      (cur.x + d.1, cur.y + d.2) ∉ visited ∧ g.cell (cur.x + d.1) (cur.y + d.2) ≠ 1 ∧
      m = ⟨cur.x + d.1, cur.y + d.2, cur.g + 1,
           heuristic (cur.x + d.1) (cur.y + d.2) destX destY,
           (cur.x + d.1, cur.y + d.2) :: cur.revPath⟩ := by
  simp only [pushNeighbors, List.mem_filterMap] at hm
  obtain ⟨d, hd, heq⟩ := hm
  refine ⟨d, hd, ?_⟩
  split at heq
  · rename_i hcond
    simp only [Option.some.injEq] at heq
    exact ⟨hcond.1, hcond.2.1, hcond.2.2, heq.symm⟩
  · simp at heq

lemma pushNeighbors_covers (g : Grid) (destX destY : Int) (cur : Node) (visited : List Cell)
    (b : Cell) (hadj : Adjacent (cur.x, cur.y) b)
    (hval : isValid b.1 b.2 g.rows g.cols = true)
    (hnv : b ∉ visited) (hpass : g.cell b.1 b.2 ≠ 1) :
    ∃ m ∈ pushNeighbors g destX destY cur visited, (m.x, m.y) = b ∧ m.g = cur.g + 1 := by
  obtain ⟨dd, hdd, hb⟩ := adjacent_exists_dir (cur.x, cur.y) b hadj
  subst hb
  simp only [pushNeighbors, List.mem_filterMap]
  refine ⟨⟨cur.x + dd.1, cur.y + dd.2, cur.g + 1,
    heuristic (cur.x + dd.1) (cur.y + dd.2) destX destY,
    (cur.x + dd.1, cur.y + dd.2) :: cur.revPath⟩, ⟨dd, hdd, ?_⟩, rfl, rfl⟩
  rw [if_pos ⟨hval, hnv, hpass⟩]

lemma pushNeighbors_len (g : Grid) (destX destY : Int) (cur : Node) (visited : List Cell) :
    (pushNeighbors g destX destY cur visited).length ≤ 4 := by
  have h : (pushNeighbors g destX destY cur visited).length ≤ dirs.length := by
    unfold pushNeighbors
    exact List.length_filterMap_le _ _
  simpa [dirs] using h

/-! ## The key frontier lemma

While the search has neither returned nor misbehaved, every reachable
unvisited cell `z` is covered by some frontier entry whose total cost is at
most (any path length to `z`) plus the heuristic of `z`: the heart of the
optimality argument for a consistent heuristic. -/

lemma key_frontier (g : Grid) (o t : Cell) (s : AState) (hinv : GInv g o t s) :
    ∀ (k : Nat) (z : Cell), ReachN g o z k → z ∉ s.visited →
      ∃ m ∈ s.pq, m.g + heurTo t (m.x, m.y) ≤ k + heurTo t z := by
  intro k
  induction k with
  | zero =>
    intro z hz hznv
    have hoz := reachN_zero_eq g o z hz
    subst hoz
    obtain ⟨m, hm, hmo, hmg⟩ := hinv.origin hznv
    refine ⟨m, hm, ?_⟩
    rw [hmo, hmg]
  | succ k ih =>
    intro z hz hznv
    obtain ⟨y, hoy, hyz, hzfree⟩ := reachN_succ_inv g k o z hz
    by_cases hyv : y ∈ s.visited
    · obtain ⟨m, hm, hmz, hmg⟩ := hinv.vnb y hyv z hyz hzfree hznv
      refine ⟨m, hm, ?_⟩
      have h1 : m.g ≤ k + 1 := hmg k hoy
      rw [hmz]
      omega
    · obtain ⟨m, hm, hle⟩ := ih y hoy hyv
      refine ⟨m, hm, ?_⟩
      have h2 : heurTo t y ≤ heurTo t z + 1 := heur_adjacent t y z hyz
      omega

/-- A popped node whose cell is not yet visited carries an optimal `g`:
any other claim is beaten in `f` by the frontier entry covering its cell,
contradicting minimality of the pop. -/
lemma popped_g_optimal (g : Grid) (o t : Cell) (s : AState) (hinv : GInv g o t s)
    (n : Node) (rest : List Node) (hpop : popMin s.pq = some (n, rest))
    (hnv : (n.x, n.y) ∉ s.visited) :
    ∀ k, ReachN g o (n.x, n.y) k → n.g ≤ k := by
  intro k hk
  obtain ⟨m, hm, hle⟩ := key_frontier g o t s hinv k (n.x, n.y) hk hnv
  have hmin := popMin_min s.pq n rest hpop m hm
  have hmH := (hinv.qinv m hm).hh
  have hnH := (hinv.qinv n (popMin_mem s.pq n rest hpop)).hh
  unfold Node.f at hmin
  rw [hmH, hnH] at hmin
  omega

/-- Popping the destination yields a shortest path: the reconstructed,
reversed parent chain is a minimal-step obstacle-avoiding walk from origin
to target. -/
lemma popped_found_good (g : Grid) (o t : Cell) (s : AState) (hinv : GInv g o t s)
    (n : Node) (rest : List Node) (hpop : popMin s.pq = some (n, rest))
    (hgoal : n.x = t.1 ∧ n.y = t.2) : FoundGood g o t n.revPath.reverse := by
  have hn := hinv.qinv n (popMin_mem s.pq n rest hpop)
  have hcell : (n.x, n.y) = t := Prod.ext hgoal.1 hgoal.2
  have hlen : n.revPath.reverse.length - 1 = n.g := by
    rw [List.length_reverse, hn.len]
    omega
  refine ⟨?_, ?_, ?_, ?_, ?_, ?_, ?_⟩
  · intro h
    exact hn.ne (by simpa using congrArg List.reverse h)
  · rw [List.head?_reverse]
    exact hn.last
  · rw [List.getLast?_reverse, hn.head, hcell]
  · exact List.chain'_reverse.mpr (hn.chain.imp fun a b hab => adjacent_symm a b hab)
  · intro c hc
    exact hn.free c (List.mem_reverse.mp hc)
  · rw [hlen, ← hcell]
    exact hn.reach
  · intro k hk
    rw [hlen]
    exact popped_g_optimal g o t s hinv n rest hpop (hcell ▸ hinv.tnotv) k (hcell ▸ hk)

/-! ## Preservation of the invariant across one loop iteration -/

lemma child_node_inv (g : Grid) (o t : Cell) (s : AState) (hinv : GInv g o t s)
    (n : Node) (hnmem : n ∈ s.pq) (m : Node)
    (hm : m ∈ pushNeighbors g t.1 t.2 n s.visited) :
    NodeInv g o t m ∧ (∀ c ∈ m.revPath.tail, c ∈ (n.x, n.y) :: s.visited) ∧ m.g = n.g + 1 := by
  have hn := hinv.qinv n hnmem
  obtain ⟨d, hd, hval, hnv, hpass, hmeq⟩ := pushNeighbors_mem_inv g t.1 t.2 n s.visited m hm
  have hadj : Adjacent (n.x, n.y) (n.x + d.1, n.y + d.2) := dir_adjacent n.x n.y d hd
  have hcfree : freeCell g (n.x, n.y) :=
    hn.free _ (List.mem_of_mem_head? (Option.mem_def.mpr hn.head))
  have hbfree : freeCell g (n.x + d.1, n.y + d.2) := ⟨hval, hpass⟩
  have hrsub : ∀ c ∈ n.revPath, c ∈ (n.x, n.y) :: s.visited := by
    obtain ⟨r0, rs, hr⟩ := List.exists_cons_of_ne_nil hn.ne
    have hr0 : r0 = (n.x, n.y) := by
      have hh := hn.head
      rw [hr] at hh
      simpa using hh
    intro c hc
    rw [hr] at hc
    rcases List.mem_cons.mp hc with rfl | hcs
    · rw [hr0]
      exact List.mem_cons_self _ _
    · refine List.mem_cons_of_mem _ (hinv.qtail n hnmem c ?_)
      rw [hr]
      exact hcs
  have hbnv : (n.x + d.1, n.y + d.2) ∉ (n.x, n.y) :: s.visited := by
    intro hmem
    rcases List.mem_cons.mp hmem with he | hv
    · exact adjacent_ne _ _ hadj he.symm
    · exact hnv hv
  subst hmeq
  refine ⟨⟨?_, ?_, ?_, ?_, ?_, ?_, ?_, ?_, ?_⟩, ?_, rfl⟩
  · simp
  · simp
  · obtain ⟨r0, rs, hr⟩ := List.exists_cons_of_ne_nil hn.ne
    show ((n.x + d.1, n.y + d.2) :: n.revPath).getLast? = some o
    rw [hr, List.getLast?_cons_cons, ← hr]
    exact hn.last
  · simp [hn.len]
  · simp [heurTo]
  · show List.Chain' Adjacent ((n.x + d.1, n.y + d.2) :: n.revPath)
    rw [List.chain'_cons']
    refine ⟨?_, hn.chain⟩
    intro y hy
    have hyeq : y = (n.x, n.y) := by
      rw [Option.mem_def] at hy
      have hh := hy.symm.trans hn.head
      exact Option.some_inj.mp hh
    rw [hyeq]
    exact adjacent_symm _ _ hadj
  · intro c hc
    rcases List.mem_cons.mp hc with rfl | hcs
    · exact hbfree
    · exact hn.free c hcs
  · rw [List.nodup_cons]
    exact ⟨fun hmem => hbnv (hrsub _ hmem), hn.nodup⟩
  · exact reachN_trans g n.g o (n.x, n.y) (n.x + d.1, n.y + d.2) 1 hn.reach
      (reachN_single g _ _ hadj hcfree hbfree)
  · intro c hc
    exact hrsub c hc

lemma popped_next_inv (g : Grid) (o t : Cell) (s : AState) (hinv : GInv g o t s)
    (n : Node) (rest : List Node) (hpop : popMin s.pq = some (n, rest))
    (hgoal : ¬(n.x = t.1 ∧ n.y = t.2)) :
    GInv g o t ⟨rest ++ pushNeighbors g t.1 t.2 n s.visited, (n.x, n.y) :: s.visited⟩ := by
  have hnmem := popMin_mem s.pq n rest hpop
  have hn := hinv.qinv n hnmem
  have hcfree : freeCell g (n.x, n.y) :=
    hn.free _ (List.mem_of_mem_head? (Option.mem_def.mpr hn.head))
  have hcne_t : (n.x, n.y) ≠ t := fun he => hgoal ⟨congrArg Prod.fst he, congrArg Prod.snd he⟩
  constructor
  · intro m hm
    rcases List.mem_append.mp hm with hmr | hmc
    · exact hinv.qinv m (popMin_rest_mem s.pq n rest hpop m hmr)
    · exact (child_node_inv g o t s hinv n hnmem m hmc).1
  · intro m hm c hc
    rcases List.mem_append.mp hm with hmr | hmc
    · exact List.mem_cons_of_mem _
        (hinv.qtail m (popMin_rest_mem s.pq n rest hpop m hmr) c hc)
    · exact (child_node_inv g o t s hinv n hnmem m hmc).2.1 c hc
  · intro c hc
    rcases List.mem_cons.mp hc with rfl | hcv
    · exact hcfree
    · exact hinv.vfree c hcv
  · intro c hc b hadj hbfree hbnv
    have hbnv' : b ∉ s.visited := fun hb => hbnv (List.mem_cons_of_mem _ hb)
    have hbne : b ≠ (n.x, n.y) := fun hb => hbnv (hb ▸ List.mem_cons_self _ _)
    rcases List.mem_cons.mp hc with rfl | hcv
    · by_cases hv : (n.x, n.y) ∈ s.visited
      · obtain ⟨m, hm, hmb, hmg⟩ := hinv.vnb (n.x, n.y) hv b hadj hbfree hbnv'
        have hmne : m ≠ n := fun he => hbne (by rw [← hmb, he])
        exact ⟨m, List.mem_append_left _ (popMin_mem_of_ne s.pq n rest hpop m hm hmne),
          hmb, hmg⟩
      · obtain ⟨m, hm, hmb, hmg⟩ := pushNeighbors_covers g t.1 t.2 n s.visited b hadj
          hbfree.1 hbnv' hbfree.2
        refine ⟨m, List.mem_append_right _ hm, hmb, ?_⟩
        intro k hk
        have := popped_g_optimal g o t s hinv n rest hpop hv k hk
        omega
    · obtain ⟨m, hm, hmb, hmg⟩ := hinv.vnb c hcv b hadj hbfree hbnv'
      have hmne : m ≠ n := fun he => hbne (by rw [← hmb, he])
      exact ⟨m, List.mem_append_left _ (popMin_mem_of_ne s.pq n rest hpop m hm hmne),
        hmb, hmg⟩
  · intro ho
    have ho' : o ∉ s.visited := fun hb => ho (List.mem_cons_of_mem _ hb)
    have hone : o ≠ (n.x, n.y) := fun hb => ho (hb ▸ List.mem_cons_self _ _)
    obtain ⟨m, hm, hmo, hmg⟩ := hinv.origin ho'
    have hmne : m ≠ n := fun he => hone (by rw [← hmo, he])
    exact ⟨m, List.mem_append_left _ (popMin_mem_of_ne s.pq n rest hpop m hm hmne),
      hmo, hmg⟩
  · intro ht
    rcases List.mem_cons.mp ht with he | hv
    · exact hcne_t he.symm
    · exact hinv.tnotv hv

/-! ## Termination: the potential strictly decreases -/

lemma isValid_iff (x y : Int) (rows cols : Nat) :
    isValid x y rows cols = true ↔
      0 ≤ x ∧ 0 ≤ y ∧ x < (rows : Int) ∧ y < (cols : Int) := by
  unfold isValid
  simp [Bool.and_eq_true, decide_eq_true_eq, and_assoc]

lemma free_nodup_length (g : Grid) (l : List Cell) (hnd : l.Nodup)
    (hfree : ∀ c ∈ l, freeCell g c) : l.length ≤ g.rows * g.cols := by
  classical
  set S : Finset Cell :=
    (Finset.Ico (0 : Int) (g.rows : Int)) ×ˢ (Finset.Ico (0 : Int) (g.cols : Int)) with hS
  have hsub : l.toFinset ⊆ S := by
    intro c hc
    have hcf := hfree c (List.mem_toFinset.mp hc)
    have hval := (isValid_iff c.1 c.2 g.rows g.cols).mp hcf.1
    rw [hS, Finset.mem_product, Finset.mem_Ico, Finset.mem_Ico]
    exact ⟨⟨hval.1, hval.2.2.1⟩, ⟨hval.2.1, hval.2.2.2⟩⟩
  have hcard : S.card = g.rows * g.cols := by
    rw [hS, Finset.card_product, Int.card_Ico, Int.card_Ico]
    simp
  calc l.length = l.toFinset.card := (List.toFinset_card_of_nodup hnd).symm
    _ ≤ S.card := Finset.card_le_card hsub
    _ = g.rows * g.cols := hcard

lemma phi_append (B : Nat) (l1 l2 : List Node) :
    phiPQ B (l1 ++ l2) = phiPQ B l1 + phiPQ B l2 := by
  simp [phiPQ]

lemma phi_perm (B : Nat) (l1 l2 : List Node) (h : l1.Perm l2) :
    phiPQ B l1 = phiPQ B l2 :=
  (h.map (nodeWeight B)).sum_eq

lemma phi_decrease (g : Grid) (o t : Cell) (s : AState) (hinv : GInv g o t s)
    (n : Node) (rest : List Node) (hpop : popMin s.pq = some (n, rest)) :
    phiPQ (g.rows * g.cols + 1) (rest ++ pushNeighbors g t.1 t.2 n s.visited) <
      phiPQ (g.rows * g.cols + 1) s.pq := by
  have hn := hinv.qinv n (popMin_mem s.pq n rest hpop)
  have hL : n.revPath.length ≤ g.rows * g.cols :=
    free_nodup_length g n.revPath hn.nodup hn.free
  set B := g.rows * g.cols + 1 with hB
  set L := n.revPath.length with hLdef
  have hBL : 1 ≤ B - L := by omega
  have hchild : ∀ m ∈ pushNeighbors g t.1 t.2 n s.visited,
      nodeWeight B m = 5 ^ (B - (L + 1)) := by
    intro m hm
    obtain ⟨d, _, _, _, _, hmeq⟩ := pushNeighbors_mem_inv g t.1 t.2 n s.visited m hm
    subst hmeq
    simp [nodeWeight, Nat.sub_sub]
  have hsum : phiPQ B (pushNeighbors g t.1 t.2 n s.visited) ≤ 4 * 5 ^ (B - (L + 1)) := by
    have h1 : phiPQ B (pushNeighbors g t.1 t.2 n s.visited) ≤
        (pushNeighbors g t.1 t.2 n s.visited).length * 5 ^ (B - (L + 1)) := by
      unfold phiPQ
      have := List.sum_le_card_nsmul
        ((pushNeighbors g t.1 t.2 n s.visited).map (nodeWeight B)) (5 ^ (B - (L + 1)))
        (by
          intro x hx
          obtain ⟨m, hm, hmx⟩ := List.mem_map.mp hx
          rw [← hmx, hchild m hm])
      simpa [smul_eq_mul] using this
    have h2 := pushNeighbors_len g t.1 t.2 n s.visited
    calc phiPQ B (pushNeighbors g t.1 t.2 n s.visited) ≤
        (pushNeighbors g t.1 t.2 n s.visited).length * 5 ^ (B - (L + 1)) := h1
      _ ≤ 4 * 5 ^ (B - (L + 1)) := Nat.mul_le_mul_right _ h2
  have hw : nodeWeight B n = 5 * 5 ^ (B - (L + 1)) := by
    unfold nodeWeight
    rw [← hLdef]
    have : B - L = (B - (L + 1)) + 1 := by omega
    rw [this, pow_succ]
    ring
  have hperm : phiPQ B s.pq = nodeWeight B n + phiPQ B rest := by
    have := phi_perm B s.pq (n :: rest) (popMin_perm s.pq n rest hpop)
    simpa [phiPQ] using this
  have hpos : 0 < 5 ^ (B - (L + 1)) := pow_pos (by norm_num) _
  rw [phi_append, hperm, hw]
  omega

/-! ## The search loop: termination and the result dichotomy -/

lemma loop_ok (g : Grid) (o t : Cell) :
    ∀ (fuel : Nat) (s : AState), GInv g o t s →
      phiPQ (g.rows * g.cols + 1) s.pq < fuel →
      ∃ p, aStarFuel g t.1 t.2 fuel s = some (.ok p) ∧
        ((p = [] ∧ ∀ k, ¬ ReachN g o t k) ∨ FoundGood g o t p) := by
  intro fuel
  induction fuel with
  | zero => intro s _ hphi; omega
  | succ fuel ih =>
    intro s hinv hphi
    cases hp : popMin s.pq with
    | none =>
      have hpq : s.pq = [] := (popMin_eq_none _).mp hp
      refine ⟨[], ?_, Or.inl ⟨rfl, ?_⟩⟩
      · simp only [aStarFuel, aStarStep, hp]
      · intro k hk
        obtain ⟨m, hm, _⟩ := key_frontier g o t s hinv k t hk hinv.tnotv
        rw [hpq] at hm
        simp at hm
    | some pr =>
      obtain ⟨n, rest⟩ := pr
      by_cases hgoal : n.x = t.1 ∧ n.y = t.2
      · refine ⟨n.revPath.reverse, ?_,
          Or.inr (popped_found_good g o t s hinv n rest hp hgoal)⟩
        simp only [aStarFuel, aStarStep, hp, if_pos hgoal]
      · have hn := hinv.qinv n (popMin_mem s.pq n rest hp)
        have hval : isValid n.x n.y g.rows g.cols = true :=
          (hn.free _ (List.mem_of_mem_head? (Option.mem_def.mpr hn.head))).1
        have hnext := popped_next_inv g o t s hinv n rest hp hgoal
        have hdec := phi_decrease g o t s hinv n rest hp
        obtain ⟨p, hres, hgood⟩ :=
          ih ⟨rest ++ pushNeighbors g t.1 t.2 n s.visited, (n.x, n.y) :: s.visited⟩
            hnext (show phiPQ (g.rows * g.cols + 1)
              (rest ++ pushNeighbors g t.1 t.2 n s.visited) < fuel by omega)
        refine ⟨p, ?_, hgood⟩
        simp only [aStarFuel, aStarStep, hp, if_neg hgoal, if_pos hval]
        exact hres

/-- The master correctness theorem of the embedded search from a free origin:
`aStar` always returns a defined result, which is either the empty path with
no obstacle-avoiding walk existing at all, or a shortest such walk. -/
lemma aStar_master (g : Grid) (o t : Cell) (ho : freeCell g o) :
    ∃ p, aStar g o.1 o.2 t.1 t.2 = .ok p ∧
      ((p = [] ∧ ∀ k, ¬ ReachN g o t k) ∨ FoundGood g o t p) := by
  have hinit : GInv g o t ⟨[mkStart o.1 o.2 t.1 t.2], []⟩ := by
    constructor
    · intro m hm
      simp only [List.mem_singleton] at hm
      subst hm
      refine ⟨?_, ?_, ?_, ?_, ?_, ?_, ?_, ?_, ?_⟩
      · simp [mkStart]
      · simp [mkStart]
      · simp [mkStart]
      · simp [mkStart]
      · simp [mkStart, heurTo]
      · simp [mkStart]
      · intro c hc
        simp only [mkStart, List.mem_singleton] at hc
        subst hc
        exact ho
      · simp [mkStart]
      · exact ReachN.refl o ho
    · intro m hm c hc
      simp only [List.mem_singleton] at hm
      subst hm
      simp [mkStart] at hc
    · intro c hc
      simp at hc
    · intro c hc
      simp at hc
    · intro _
      exact ⟨mkStart o.1 o.2 t.1 t.2, by simp, rfl, rfl⟩
    · simp
  have hphi : phiPQ (g.rows * g.cols + 1) [mkStart o.1 o.2 t.1 t.2] < searchFuel g := by
    unfold phiPQ nodeWeight searchFuel mkStart
    simp only [List.map_cons, List.map_nil, List.sum_cons, List.sum_nil, List.length_cons,
      List.length_nil, Nat.add_zero]
    have h1 : g.rows * g.cols + 1 - 1 = g.rows * g.cols := by omega
    rw [h1]
    exact Nat.pow_lt_pow_right (by norm_num) (by omega)
  obtain ⟨p, hres, hgood⟩ :=
    loop_ok g o t (searchFuel g) ⟨[mkStart o.1 o.2 t.1 t.2], []⟩ hinit hphi
  refine ⟨p, ?_, hgood⟩
  unfold aStar
  rw [hres]
  rfl

/-! ## The claim theorems about the search -/

/-- C1: whenever some obstacle-avoiding 4-connected path from origin to
target exists, `aStar` (with the Manhattan heuristic) returns a path, and
its step count equals the true shortest obstacle-avoiding step count: it is
attained by the returned path and is a lower bound of every such path. -/
theorem aStar_optimal (g : Grid) (o t : Cell) (k : Nat) (hreach : ReachN g o t k) :
    ∃ p, aStar g o.1 o.2 t.1 t.2 = .ok p ∧ p ≠ [] ∧
      ReachN g o t (p.length - 1) ∧ ∀ m, ReachN g o t m → p.length - 1 ≤ m := by
  obtain ⟨p, hres, hgood⟩ := aStar_master g o t (reachN_free_start g o t k hreach)
  rcases hgood with ⟨_, hno⟩ | hfg
  · exact absurd hreach (hno k)
  · exact ⟨p, hres, hfg.ne, hfg.reach, hfg.mini⟩

theorem aStar_optimal_witness :
    ReachN gridFree1x2 (0, 0) (0, 1) 1 ∧
    (∃ p, aStar gridFree1x2 0 0 0 1 = .ok p ∧ p ≠ [] ∧
      ReachN gridFree1x2 (0, 0) (0, 1) (p.length - 1) ∧
      ∀ m, ReachN gridFree1x2 (0, 0) (0, 1) m → p.length - 1 ≤ m) := by
  have hr : ReachN gridFree1x2 (0, 0) (0, 1) 1 :=
    reachN_single gridFree1x2 (0, 0) (0, 1) (by decide) (by decide) (by decide)
  exact ⟨hr, aStar_optimal gridFree1x2 (0, 0) (0, 1) 1 hr⟩

/-- C2: from an in-bounds passable origin, any non-empty returned path is a
4-connected walk of in-bounds non-obstacle cells whose first cell is the
origin and whose last cell is the target. -/
theorem aStar_sound (g : Grid) (o t : Cell) (p : List Cell)
    (ho : freeCell g o) (hret : aStar g o.1 o.2 t.1 t.2 = .ok p) (hne : p ≠ []) :
    List.Chain' Adjacent p ∧ (∀ c ∈ p, freeCell g c) ∧
      p.head? = some o ∧ p.getLast? = some t := by
  obtain ⟨p', hres, hgood⟩ := aStar_master g o t ho
  rw [hret] at hres
  injection hres with hres
  subst hres
  rcases hgood with ⟨hnil, _⟩ | hfg
  · exact absurd hnil hne
  · exact ⟨hfg.chain, hfg.free, hfg.head, hfg.last⟩

theorem aStar_sound_witness :
    freeCell gridFree1x2 (0, 0) ∧
    aStar gridFree1x2 0 0 0 1 = .ok [(0, 0), (0, 1)] ∧
    ([(0, 0), (0, 1)] : List Cell) ≠ [] ∧
    (List.Chain' Adjacent [(0, 0), (0, 1)] ∧
      (∀ c ∈ ([(0, 0), (0, 1)] : List Cell), freeCell gridFree1x2 c) ∧
      ([(0, 0), (0, 1)] : List Cell).head? = some (0, 0) ∧
      ([(0, 0), (0, 1)] : List Cell).getLast? = some (0, 1)) :=
  ⟨by decide, by rfl, by decide,
   aStar_sound gridFree1x2 (0, 0) (0, 1) [(0, 0), (0, 1)] (by decide) (by rfl) (by decide)⟩

/-- C3 is false as stated: it quantifies over every in-bounds origin, but the
code never checks the origin's passability. On a 1 x 2 grid whose origin
cell (0,0) is an obstacle, no obstacle-avoiding path to (0,1) exists (any
path would contain the obstacle origin), yet the search returns the
non-empty path [(0,0), (0,1)] instead of the empty path. -/
theorem aStar_complete_counterexample :
    aStar gridObstacleOrigin 0 0 0 1 = .ok [(0, 0), (0, 1)] ∧
    ¬ ∃ k, ReachN gridObstacleOrigin (0, 0) (0, 1) k := by
  constructor
  · rfl
  · rintro ⟨k, hk⟩
    have hfree := reachN_free_start gridObstacleOrigin (0, 0) (0, 1) k hk
    revert hfree
    decide

/-- C3 amended (origin required passable as well as in-bounds): from a free
origin, the search never faults, returning a non-empty path exactly when an
obstacle-avoiding path to the target exists and the empty path exactly when
none exists. -/
theorem aStar_complete (g : Grid) (o t : Cell) (ho : freeCell g o) :
    ∃ p, aStar g o.1 o.2 t.1 t.2 = .ok p ∧ (p ≠ [] ↔ ∃ k, ReachN g o t k) := by
  obtain ⟨p, hres, hgood⟩ := aStar_master g o t ho
  refine ⟨p, hres, ?_⟩
  rcases hgood with ⟨hnil, hno⟩ | hfg
  · subst hnil
    constructor
    · intro h
      exact absurd rfl h
    · rintro ⟨k, hk⟩
      exact absurd hk (hno k)
  · constructor
    · intro _
      exact ⟨p.length - 1, hfg.reach⟩
    · intro _
      exact hfg.ne

theorem aStar_complete_witness :
    freeCell gridObstacleTarget (0, 0) ∧
    (∃ p, aStar gridObstacleTarget 0 0 0 1 = .ok p ∧
      (p ≠ [] ↔ ∃ k, ReachN gridObstacleTarget (0, 0) (0, 1) k)) :=
  ⟨by decide, aStar_complete gridObstacleTarget (0, 0) (0, 1) (by decide)⟩

/-- C7 amended: the code has no OutOfBounds error and performs no validation
of origin or target. A target outside the grid makes the search exhaust its
frontier and return the empty "unreachable" path; an origin outside the grid
(with origin distinct from target) makes line 99 write `visited` out of
bounds - undefined behavior, not a reported error. -/
theorem aStar_oob (g : Grid) (o t : Cell) :
    (freeCell g o → isValid t.1 t.2 g.rows g.cols = false →
      aStar g o.1 o.2 t.1 t.2 = .ok []) ∧
    (isValid o.1 o.2 g.rows g.cols = false → o ≠ t →
      aStar g o.1 o.2 t.1 t.2 = .error ()) := by
  constructor
  · intro ho htinv
    obtain ⟨p, hres, hgood⟩ := aStar_master g o t ho
    rcases hgood with ⟨hnil, _⟩ | hfg
    · rw [hnil] at hres
      exact hres
    · exfalso
      have hfree := reachN_free_end g o t _ hfg.reach
      rw [hfree.1] at htinv
      exact Bool.noConfusion htinv
  · intro hoinv hone
    have hpos : 0 < searchFuel g := pow_pos (by norm_num) _
    obtain ⟨fk, hfk⟩ : ∃ fk, searchFuel g = fk + 1 := ⟨searchFuel g - 1, by omega⟩
    have hng : ¬((mkStart o.1 o.2 t.1 t.2).x = t.1 ∧ (mkStart o.1 o.2 t.1 t.2).y = t.2) := by
      intro hc
      exact hone (Prod.ext hc.1 hc.2)
    have hnv : ¬(isValid (mkStart o.1 o.2 t.1 t.2).x (mkStart o.1 o.2 t.1 t.2).y
        g.rows g.cols = true) := by
      show ¬(isValid o.1 o.2 g.rows g.cols = true)
      rw [hoinv]
      simp
    unfold aStar
    rw [hfk]
    simp only [aStarFuel, aStarStep, popMin]
    rw [if_neg hng, if_neg hnv]
    rfl

theorem aStar_oob_witness :
    (freeCell gridFree1x2 (0, 0) ∧ isValid 7 0 gridFree1x2.rows gridFree1x2.cols = false ∧
      aStar gridFree1x2 0 0 7 0 = .ok []) ∧
    (isValid 9 9 gridFree1x1.rows gridFree1x1.cols = false ∧ ((9, 9) : Cell) ≠ (0, 0) ∧
      aStar gridFree1x1 9 9 0 0 = .error ()) :=
  ⟨⟨by decide, by decide, (aStar_oob gridFree1x2 (0, 0) (7, 0)).1 (by decide) (by decide)⟩,
   ⟨by decide, by decide, (aStar_oob gridFree1x1 (9, 9) (0, 0)).2 (by decide) (by decide)⟩⟩
